import Mathlib

/-!
Verification of the two text-processing subsystems of the ai-health-agent
backend: the rule-based triage classifier (`backend/app/main.py`) and the
lexical relevance scorer (`backend/app/services/search.py`).

Python strings are modelled as lists of characters (`Str`), Python floats as
real numbers, Python sets of strings as finsets. `str.lower()` is modelled on
its ASCII range (every keyword, tag and emergency phrase in the program is
ASCII), and `str.strip()` strips the six ASCII whitespace characters.
-/

/-- Characters of a Python string, in order. -/
abbrev Str := List Char

set_option maxRecDepth 10000

/-- The character list of a Lean string literal. -/
def S (s : String) : Str := s.toList

/-- ASCII lowercasing of one character, as Python `str.lower` acts on the
ASCII range: the codepoints 65-90 are shifted up by 32, all else is fixed. -/
def low (c : Char) : Char :=
  if h : 65 ≤ c.toNat ∧ c.toNat ≤ 90 then
    ⟨c.val + 32, Or.inl (by
      rw [UInt32.toNat_add]
      rw [show (32 : UInt32).toNat = 32 from rfl, show UInt32.size = 4294967296 from rfl]
      have h3 : c.val.toNat ≤ 90 := h.2
      omega)⟩
  else c

/-- Lowercasing a whole string: Python `s.lower()`. -/
def lowerS (s : Str) : Str := s.map low

theorem toNat_low_of (c : Char) (h : 65 ≤ c.toNat ∧ c.toNat ≤ 90) :
    (low c).toNat = c.toNat + 32 := by
  unfold low
  rw [dif_pos h]
  show (c.val + 32).toNat = c.toNat + 32
  rw [UInt32.toNat_add]
  rw [show (32 : UInt32).toNat = 32 from rfl, show UInt32.size = 4294967296 from rfl]
  have h3 : c.val.toNat ≤ 90 := h.2
  have h4 : c.toNat = c.val.toNat := rfl
  omega

theorem low_eq_self (c : Char) (h : ¬ (65 ≤ c.toNat ∧ c.toNat ≤ 90)) : low c = c := by
  unfold low
  exact dif_neg h

/-- ASCII lowercasing is idempotent. -/
theorem low_low (c : Char) : low (low c) = low c := by
  by_cases h : 65 ≤ c.toNat ∧ c.toNat ≤ 90
  · have h1 := toNat_low_of c h
    have h2 : ¬ (65 ≤ (low c).toNat ∧ (low c).toNat ≤ 90) := by omega
    exact low_eq_self (low c) h2
  · rw [low_eq_self c h, low_eq_self c h]

theorem lowerS_idem (s : Str) : lowerS (lowerS s) = lowerS s := by
  unfold lowerS
  rw [List.map_map]
  exact List.map_congr_left (fun a _ => low_low a)

/-- The six ASCII whitespace characters stripped by Python `str.strip()`. -/
def isWs (c : Char) : Bool :=
  c == ' ' || c == '\t' || c == '\n' || c == '\r' || c == '\x0b' || c == '\x0c'

/-- Python `s.strip()`: drop whitespace from both ends. -/
def stripWS (s : Str) : Str :=
  ((s.dropWhile isWs).reverse.dropWhile isWs).reverse

/-- Boolean test: `p` is an initial segment of `s`. -/
def prefB : Str → Str → Bool
  | [], _ => true
  | _ :: _, [] => false
  | a :: ps, b :: ss => a == b && prefB ps ss

/-- Boolean substring test, Python `k in l` on strings. -/
def substrB (k : Str) : Str → Bool
  | [] => k.isEmpty
  | c :: t => prefB k (c :: t) || substrB k t

/-- `p` is an initial segment of `s`. -/
def hasPref (p s : Str) : Prop := ∃ t, p ++ t = s

/-- `k` occurs contiguously inside `l` (Python `k in l` on strings). -/
def substr (k l : Str) : Prop := ∃ u v, u ++ k ++ v = l

theorem prefB_iff (p s : Str) : prefB p s = true ↔ hasPref p s := by
  induction p generalizing s with
  | nil => simp [prefB, hasPref]
  | cons a ps ih =>
    cases s with
    | nil =>
      simp only [prefB, hasPref]
      constructor
      · intro h; cases h
      · rintro ⟨t, ht⟩; cases ht
    | cons b ss =>
      simp only [prefB, hasPref, Bool.and_eq_true, beq_iff_eq, ih]
      constructor
      · rintro ⟨rfl, t, rfl⟩
        exact ⟨t, rfl⟩
      · rintro ⟨t, ht⟩
        injection ht with h1 h2
        exact ⟨h1, t, h2⟩

theorem substrB_iff (k l : Str) : substrB k l = true ↔ substr k l := by
  induction l with
  | nil =>
    simp only [substrB, substr, List.isEmpty_iff]
    constructor
    · rintro rfl; exact ⟨[], [], rfl⟩
    · rintro ⟨u, v, huv⟩
      have hlen := congrArg List.length huv
      simp only [List.length_append, List.length_nil] at hlen
      exact List.length_eq_zero.mp (by omega)
  | cons c t ih =>
    simp only [substrB, Bool.or_eq_true, prefB_iff, ih]
    constructor
    · rintro (⟨s, hs⟩ | ⟨u, v, rfl⟩)
      · exact ⟨[], s, by simpa using hs⟩
      · exact ⟨c :: u, v, rfl⟩
    · rintro ⟨u, v, huv⟩
      cases u with
      | nil => exact Or.inl ⟨v, by simpa using huv⟩
      | cons x u =>
        rw [List.cons_append] at huv
        injection huv with h1 h2
        exact Or.inr ⟨u, v, h2⟩

instance (k l : Str) : Decidable (substr k l) :=
  decidable_of_iff (substrB k l = true) (substrB_iff k l)

instance (p s : Str) : Decidable (hasPref p s) :=
  decidable_of_iff (prefB p s = true) (prefB_iff p s)

theorem hasPref_append (p t : Str) : hasPref p (p ++ t) := ⟨t, rfl⟩

theorem substr_map (f : Char → Char) {k l : Str} (h : substr k l) :
    substr (k.map f) (l.map f) := by
  rcases h with ⟨u, v, rfl⟩
  exact ⟨u.map f, v.map f, by simp⟩

theorem substr_trans {k m l : Str} (h1 : substr k m) (h2 : substr m l) : substr k l := by
  rcases h1 with ⟨u, v, rfl⟩
  rcases h2 with ⟨x, y, rfl⟩
  exact ⟨x ++ u, v ++ y, by simp⟩

theorem substr_reverse {k l : Str} (h : substr k l) : substr k.reverse l.reverse := by
  rcases h with ⟨u, v, rfl⟩
  exact ⟨v.reverse, u.reverse, by simp⟩

/-- A substring whose first character is not whitespace survives dropping
leading whitespace. -/
theorem substr_dropWhile {c : Char} {ks l : Str} (hc : isWs c = false)
    (h : substr (c :: ks) l) : substr (c :: ks) (l.dropWhile isWs) := by
  rcases h with ⟨u, v, rfl⟩
  induction u with
  | nil =>
    rw [List.nil_append, List.cons_append, List.dropWhile_cons_of_neg (by simp [hc])]
    exact ⟨[], v, rfl⟩
  | cons x us ih =>
    rw [List.cons_append, List.cons_append]
    by_cases hx : isWs x = true
    · rw [List.dropWhile_cons_of_pos hx]
      exact ih
    · rw [List.dropWhile_cons_of_neg hx]
      exact ⟨x :: us, v, rfl⟩

/-- The stripped string occurs inside the original. -/
theorem substr_stripWS_self (l : Str) : substr (stripWS l) l := by
  have h1 : ∀ m : Str, substr (m.dropWhile isWs) m := by
    intro m
    exact ⟨m.takeWhile isWs, [], by simp [List.takeWhile_append_dropWhile]⟩
  have h2 : substr ((stripWS l).reverse) ((l.dropWhile isWs).reverse) := by
    unfold stripWS
    rw [List.reverse_reverse]
    exact h1 _
  have h3 := substr_reverse h2
  rw [List.reverse_reverse, List.reverse_reverse] at h3
  exact substr_trans h3 (h1 l)

/-- Whether a nonempty string starts and ends with a non-whitespace character. -/
def edgeOK (k : Str) : Bool :=
  (match k with
   | [] => false
   | c :: _ => !isWs c) &&
  (match k.reverse with
   | [] => false
   | c :: _ => !isWs c)

/-- A substring with non-whitespace first and last characters survives
stripping whitespace from both ends. -/
theorem substr_stripWS {k l : Str} (hk : edgeOK k = true) (h : substr k l) :
    substr k (stripWS l) := by
  unfold edgeOK at hk
  rw [Bool.and_eq_true] at hk
  obtain ⟨hk1, hk2⟩ := hk
  cases hkk : k with
  | nil => simp [hkk] at hk1
  | cons c ks =>
    subst hkk
    have hc : isWs c = false := by
      simpa using hk1
    have step1 : substr (c :: ks) (l.dropWhile isWs) := substr_dropWhile hc h
    have step2 := substr_reverse step1
    cases hkr : (c :: ks).reverse with
    | nil => simp at hkr
    | cons d ds =>
      rw [hkr] at step2 hk2
      have hd : isWs d = false := by simpa using hk2
      have step3 := substr_dropWhile hd step2
      have step4 := substr_reverse step3
      rw [← hkr, List.reverse_reverse] at step4
      exact step4

/-! ## The triage classifier (`backend/app/main.py`) -/

/-- The fixed disclaimer sentence prefixed to every response. -/
def DISCLAIMER : Str := S
  "I'm an educational demo avatar, not a medical professional. I don't diagnose or provide personalized medical advice. If this is urgent or you have severe symptoms, seek local emergency care."

/-- The emergency keyword list, in source order. -/
def EMERGENCY_SIGNS : List Str :=
  [S "severe chest pain", S "crushing chest pain", S "trouble breathing",
   S "shortness of breath", S "blue lips", S "confusion", S "cannot wake",
   S "unconscious", S "stroke", S "numb on one side",
   S "worst headache of my life", S "suicidal", S "suicide",
   S "bleeding won't stop", S "cant breathe"]

/-- `_contains_any(text, bag)`: lowercases `text` and tests each phrase of
`bag` as a substring. -/
def _contains_any (text : Str) (bag : List Str) : Bool :=
  bag.any (fun k => substrB k (lowerS text))

def EMERG_RESP : Str := DISCLAIMER ++ S
  " Your message mentions potentially urgent warning signs. Please call your local emergency number or go to the nearest emergency department now."

def COLD_KEYS : List Str :=
  [S "fever", S "cold", S "cough", S "sore throat", S "flu", S "runny nose", S "congestion"]

def COLD_RESP : Str := DISCLAIMER ++ S
  " For typical cold/flu: rest, fluids, and over-the-counter symptom relief can help. Red flags: breathing trouble, chest pain, confusion, dehydration, fever >3–4 days, or rapid worsening."

def ALLERGY_KEYS : List Str := [S "allergy", S "allergies", S "hay fever", S "pollen"]

def ALLERGY_RESP : Str := DISCLAIMER ++ S
  " Allergy tips: avoid triggers, consider saline rinses and common antihistamines. If wheezing or breathing problems develop, seek care promptly."

def GI_KEYS : List Str := [S "stomach", S "nausea", S "vomit", S "diarrhea", S "gastro"]

def GI_RESP : Str := DISCLAIMER ++ S
  " For mild stomach upset: hydrate with small frequent sips; oral rehydration can help. Seek care if there is blood, high fever, severe pain, dehydration, or symptoms >2–3 days."

def HEADACHE_KEYS : List Str := [S "headache", S "migraine"]

def HEADACHE_RESP : Str := DISCLAIMER ++ S
  " Headache tips: rest, hydrate, and consider simple pain relief if appropriate. Red flags: sudden worst headache, head injury, fever with stiff neck, vision/speech changes, weakness."

def ANXIETY_KEYS : List Str := [S "anxiety", S "panic", S "worry", S "stress"]

def ANXIETY_RESP : Str := DISCLAIMER ++ S
  " Try slow breathing (in 4s, hold 4s, out 6–8s), brief movement, and limiting caffeine. If anxiety interferes with life, a licensed therapist can help."

def DEPRESS_KEYS : List Str := [S "depress", S "low mood", S "hopeless"]

def DEPRESS_RESP : Str := DISCLAIMER ++ S
  " Routines, sunlight, movement, and social contact can help mood. If thoughts of self-harm occur, contact local crisis services or a clinician immediately."

def SLEEP_KEYS : List Str := [S "sleep", S "insomnia"]

def SLEEP_RESP : Str := DISCLAIMER ++ S
  " Sleep tips: consistent schedule, cool/dark/quiet room, screens off before bed, keep caffeine earlier in the day. If snoring with pauses, discuss with a clinician."

def NUTRITION_KEYS : List Str :=
  [S "diet", S "nutrition", S "eat healthy", S "weight", S "obesity"]

def NUTRITION_RESP : Str := DISCLAIMER ++ S
  " Balanced plate: vegetables, lean protein, whole grains, healthy fats; fewer ultra-processed foods. Small steady changes beat extreme diets. A registered dietitian can tailor a plan."

def EXERCISE_KEYS : List Str := [S "exercise", S "workout", S "physical activity"]

def EXERCISE_RESP : Str := DISCLAIMER ++ S
  " Aim for ~150 min/week of moderate activity plus two days of strength training if you can. Start gently and increase gradually; any movement helps."

def VACCINE_KEYS : List Str := [S "vaccine", S "vaccination", S "immunization"]

def VACCINE_RESP : Str := DISCLAIMER ++ S
  " Vaccines reduce risk of severe illness. Recommendations depend on age, health, and local guidance. Your clinician or public health site can provide the latest advice."

def AUTISM_KEYS : List Str := [S "autism", S "asd", S "spectrum"]

def AUTISM_RESP : Str := DISCLAIMER ++ S
  " Autism involves differences in communication, social interaction, and sensory processing. Only trained professionals can diagnose it. I can share general information and resources."

def GREET_RESP : Str := DISCLAIMER ++ S
  " Hello! How are you feeling today? I can share general wellness information."

def DEFAULT_RESP : Str := DISCLAIMER ++ S
  " Tell me what general topic you want to know about (sleep, headaches, anxiety, cold/flu, vaccines, nutrition, exercise, etc.)."

/-- Whether any keyword of `ks` occurs in the (already normalized) text `t`:
the source's `any(k in t for k in [...])`. -/
def anyKey (ks : List Str) (t : Str) : Bool := ks.any (fun k => substrB k t)

/-- The source's greeting test:
`t in {"hi", "hello", "hey"} or "hello" in t or "hi " in t`. -/
def greetB (t : Str) : Bool :=
  t == S "hi" || t == S "hello" || t == S "hey" || substrB (S "hello") t || substrB (S "hi ") t

/-- `_triage(text)`: the cascade of checks of `backend/app/main.py`, in source
order: normalize, emergency override, eleven topic categories, greeting,
default. -/
def _triage (text : Str) : Str :=
  let t := stripWS (lowerS text)
  if _contains_any t EMERGENCY_SIGNS then EMERG_RESP
  else if anyKey COLD_KEYS t then COLD_RESP
  else if anyKey ALLERGY_KEYS t then ALLERGY_RESP
  else if anyKey GI_KEYS t then GI_RESP
  else if anyKey HEADACHE_KEYS t then HEADACHE_RESP
  else if anyKey ANXIETY_KEYS t then ANXIETY_RESP
  else if anyKey DEPRESS_KEYS t then DEPRESS_RESP
  else if anyKey SLEEP_KEYS t then SLEEP_RESP
  else if anyKey NUTRITION_KEYS t then NUTRITION_RESP
  else if anyKey EXERCISE_KEYS t then EXERCISE_RESP
  else if anyKey VACCINE_KEYS t then VACCINE_RESP
  else if anyKey AUTISM_KEYS t then AUTISM_RESP
  else if greetB t then GREET_RESP
  else DEFAULT_RESP

/-- The `/chat` endpooint's reply: empty input (after stripping) gets a
prompt-for-input response, anything else goes to `_triage`. -/
def chatReply (message : Str) : Str :=
  let msg := stripWS message
  if msg.isEmpty then DISCLAIMER ++ S " Please enter a short question or topic."
  else _triage msg

/-- The eleven topic categories as an ordered (keywords, response) table, in
the declared order of the spec. -/
def RULES : List (List Str × Str) :=
  [(COLD_KEYS, COLD_RESP), (ALLERGY_KEYS, ALLERGY_RESP), (GI_KEYS, GI_RESP),
   (HEADACHE_KEYS, HEADACHE_RESP), (ANXIETY_KEYS, ANXIETY_RESP),
   (DEPRESS_KEYS, DEPRESS_RESP), (SLEEP_KEYS, SLEEP_RESP),
   (NUTRITION_KEYS, NUTRITION_RESP), (EXERCISE_KEYS, EXERCISE_RESP),
   (VACCINE_KEYS, VACCINE_RESP), (AUTISM_KEYS, AUTISM_RESP)]

/-- First-match-wins iteration over an ordered rule table. -/
def firstMatch (t : Str) : List (List Str × Str) → Option Str
  | [] => none
  | (ks, r) :: rest => if anyKey ks t then some r else firstMatch t rest

/-- The spec's data-driven classifier: emergency override first, then
first-match-wins over the ordered category table, then greeting, then the
default response. -/
def triageTable (text : Str) : Str :=
  let t := stripWS (lowerS text)
  if _contains_any t EMERGENCY_SIGNS then EMERG_RESP
  else
    match firstMatch t RULES with
    | some r => r
    | none => if greetB t then GREET_RESP else DEFAULT_RESP

/-- Every response string the classifier can return. -/
def RESPONSES : List Str :=
  [EMERG_RESP, COLD_RESP, ALLERGY_RESP, GI_RESP, HEADACHE_RESP, ANXIETY_RESP,
   DEPRESS_RESP, SLEEP_RESP, NUTRITION_RESP, EXERCISE_RESP, VACCINE_RESP,
   AUTISM_RESP, GREET_RESP, DEFAULT_RESP]


/-- The thirteen responses of the non-emergency cascade. -/
def NONEMERG_RESPONSES : List Str :=
  [COLD_RESP, ALLERGY_RESP, GI_RESP, HEADACHE_RESP, ANXIETY_RESP, DEPRESS_RESP,
   SLEEP_RESP, NUTRITION_RESP, EXERCISE_RESP, VACCINE_RESP, AUTISM_RESP,
   GREET_RESP, DEFAULT_RESP]

/-- Any emergency phrase occurring in the lowercased input fires the
emergency branch of the cascade. -/
theorem emergency_fires (text k : Str) (hk : k ∈ EMERGENCY_SIGNS)
    (hs : substr k (lowerS text)) : _triage text = EMERG_RESP := by
  have hedge : edgeOK k = true := by
    have hall : EMERGENCY_SIGNS.all edgeOK = true := by decide
    exact List.all_eq_true.mp hall k hk
  have hlow : lowerS k = k := by
    have hall : EMERGENCY_SIGNS.all (fun k => lowerS k == k) = true := by decide
    simpa using List.all_eq_true.mp hall k hk
  have h1 : substr k (stripWS (lowerS text)) := substr_stripWS hedge hs
  have h2 : substr (lowerS k) (lowerS (stripWS (lowerS text))) := substr_map low h1
  rw [hlow] at h2
  have hc : _contains_any (stripWS (lowerS text)) EMERGENCY_SIGNS = true := by
    unfold _contains_any
    exact List.any_eq_true.mpr ⟨k, hk, (substrB_iff _ _).mpr h2⟩
  simp only [_triage, hc, if_true]

/-- If no emergency phrase occurs in the lowercased input, the emergency
condition computed by the cascade is false. -/
theorem no_emergency_cond (text : Str)
    (h : ∀ k ∈ EMERGENCY_SIGNS, ¬ substr k (lowerS text)) :
    _contains_any (stripWS (lowerS text)) EMERGENCY_SIGNS = false := by
  rw [Bool.eq_false_iff]
  intro hc
  unfold _contains_any at hc
  obtain ⟨k, hk, hkb⟩ := List.any_eq_true.mp hc
  have h2 : substr k (lowerS (stripWS (lowerS text))) := (substrB_iff _ _).mp hkb
  have h3 : substr (lowerS (stripWS (lowerS text))) (lowerS (lowerS text)) :=
    substr_map low (substr_stripWS_self (lowerS text))
  rw [lowerS_idem] at h3
  exact h k hk (substr_trans h2 h3)

/-- The source's cascade of conditionals computes exactly the data-driven
iteration over the ordered rule table. -/
theorem triage_eq_table (text : Str) : _triage text = triageTable text := by
  simp only [_triage, triageTable, RULES, firstMatch]
  cases _contains_any (stripWS (lowerS text)) EMERGENCY_SIGNS
  case true => rfl
  cases anyKey COLD_KEYS (stripWS (lowerS text))
  case true => rfl
  cases anyKey ALLERGY_KEYS (stripWS (lowerS text))
  case true => rfl
  cases anyKey GI_KEYS (stripWS (lowerS text))
  case true => rfl
  cases anyKey HEADACHE_KEYS (stripWS (lowerS text))
  case true => rfl
  cases anyKey ANXIETY_KEYS (stripWS (lowerS text))
  case true => rfl
  cases anyKey DEPRESS_KEYS (stripWS (lowerS text))
  case true => rfl
  cases anyKey SLEEP_KEYS (stripWS (lowerS text))
  case true => rfl
  cases anyKey NUTRITION_KEYS (stripWS (lowerS text))
  case true => rfl
  cases anyKey EXERCISE_KEYS (stripWS (lowerS text))
  case true => rfl
  cases anyKey VACCINE_KEYS (stripWS (lowerS text))
  case true => rfl
  cases anyKey AUTISM_KEYS (stripWS (lowerS text))
  case true => rfl
  cases greetB (stripWS (lowerS text))
  case true => rfl
  rfl

/-- A response produced by the rule table is the response of one of its rules. -/
theorem firstMatch_mem {t r : Str} {rs : List (List Str × Str)}
    (h : firstMatch t rs = some r) : r ∈ rs.map Prod.snd := by
  induction rs with
  | nil => simp [firstMatch] at h
  | cons p rest ih =>
    obtain ⟨ks, resp⟩ := p
    simp only [firstMatch] at h
    split at h
    · injection h with h
      rw [List.map_cons, h]
      exact List.mem_cons_self _ _
    · exact List.mem_cons_of_mem _ (ih h)

theorem triage_mem (text : Str) : _triage text ∈ RESPONSES := by
  rw [triage_eq_table]
  simp only [triageTable]
  cases _contains_any (stripWS (lowerS text)) EMERGENCY_SIGNS
  case true => exact show EMERG_RESP ∈ RESPONSES by decide
  cases hm : firstMatch (stripWS (lowerS text)) RULES
  case some r =>
    have h1 : r ∈ RULES.map Prod.snd := firstMatch_mem hm
    have h2 : ∀ x ∈ RULES.map Prod.snd, x ∈ RESPONSES := by decide
    exact h2 r h1
  case none =>
    cases greetB (stripWS (lowerS text))
    case true => exact show GREET_RESP ∈ RESPONSES by decide
    case false => exact show DEFAULT_RESP ∈ RESPONSES by decide

theorem triage_no_emergency (text : Str)
    (h : ∀ k ∈ EMERGENCY_SIGNS, ¬ substr k (lowerS text)) :
    _triage text ∈ NONEMERG_RESPONSES := by
  have hc := no_emergency_cond text h
  rw [triage_eq_table]
  simp only [triageTable, hc]
  cases hm : firstMatch (stripWS (lowerS text)) RULES
  case some r =>
    have h1 : r ∈ RULES.map Prod.snd := firstMatch_mem hm
    have h2 : ∀ x ∈ RULES.map Prod.snd, x ∈ NONEMERG_RESPONSES := by decide
    exact h2 r h1
  case none =>
    cases greetB (stripWS (lowerS text))
    case true => exact show GREET_RESP ∈ NONEMERG_RESPONSES by decide
    case false => exact show DEFAULT_RESP ∈ NONEMERG_RESPONSES by decide

theorem emerg_resp_notin : EMERG_RESP ∉ NONEMERG_RESPONSES := by decide

theorem triage_hasPref (text : Str) : hasPref DISCLAIMER (_triage text) := by
  have h := triage_mem text
  have hall : ∀ r ∈ RESPONSES, hasPref DISCLAIMER r := by decide
  exact hall _ h

theorem chat_hasPref (message : Str) : hasPref DISCLAIMER (chatReply message) := by
  simp only [chatReply]
  split
  · exact hasPref_append _ _
  · exact triage_hasPref _

/-- Claim C1: for every input string, if the lowercased text contains any
phrase of the emergency keyword list as a substring, the classifier returns
the emergency response, regardless of which topic-category keywords also
occur in the same text. -/
theorem C1_emergency_precedence (text : Str)
    (h : ∃ k ∈ EMERGENCY_SIGNS, substr k (lowerS text)) :
    _triage text = EMERG_RESP := by
  obtain ⟨k, hk, hs⟩ := h
  exact emergency_fires text k hk hs

theorem C1_emergency_precedence_witness :
    (∃ k ∈ EMERGENCY_SIGNS, substr k (lowerS (S "I have a fever and feel suicidal"))) ∧
    _triage (S "I have a fever and feel suicidal") = EMERG_RESP :=
  ⟨by decide, C1_emergency_precedence (S "I have a fever and feel suicidal") (by decide)⟩

/-- Claim C2: every string returned by the classifier starts with the exact
disclaimer sentence, and so does every string returned at the chat boundary,
including the empty-input response. -/
theorem C2_disclaimer_prefix (text : Str) :
    hasPref DISCLAIMER (_triage text) ∧ hasPref DISCLAIMER (chatReply text) :=
  ⟨triage_hasPref text, chat_hasPref text⟩

/-- Claim C3 fails on the code: the input "chest pain" contains the phrase
"chest pain" in its lowercased text, yet the classifier does not return the
emergency response (the emergency list only holds the qualified phrases
"severe chest pain" and "crushing chest pain"). -/
theorem C3_chest_pain_counterexample :
    substr (S "chest pain") (lowerS (S "chest pain")) ∧
    _triage (S "chest pain") ≠ EMERG_RESP := by decide

/-- Claim C3 (amended): for every input string whose lowercased text contains
the phrase "severe chest pain" (a member of the emergency keyword list) as a
substring, the classifier returns the emergency response. -/
theorem C3_severe_chest_pain (text : Str)
    (h : substr (S "severe chest pain") (lowerS text)) :
    _triage text = EMERG_RESP :=
  emergency_fires text (S "severe chest pain") (by decide) h

theorem C3_severe_chest_pain_witness :
    substr (S "severe chest pain") (lowerS (S "Severe chest pain for an hour")) ∧
    _triage (S "Severe chest pain for an hour") = EMERG_RESP :=
  ⟨by decide, C3_severe_chest_pain (S "Severe chest pain for an hour") (by decide)⟩

/-- Claim C4 fails on the code for its greeting example: "hey there" contains
the greeting keyword "hey" and matches no emergency phrase and no topic
category, yet the classifier returns the default response, not the greeting
response (the greeting branch only tests equality with "hi", "hello", "hey"
and the substrings "hello" and "hi "). -/
theorem C4_hey_counterexample :
    substr (S "hey") (stripWS (lowerS (S "hey there"))) ∧
    _contains_any (stripWS (lowerS (S "hey there"))) EMERGENCY_SIGNS = false ∧
    (RULES.all fun p => !anyKey p.1 (stripWS (lowerS (S "hey there")))) = true ∧
    _triage (S "hey there") ≠ GREET_RESP := by decide

/-- Claim C4 (amended): when no emergency phrase matches, the classifier
evaluates the topic categories in the declared order as a first-match-wins
iteration over the ordered rule table, each category matching exactly when
the normalized text contains one of its keyword substrings; the greeting
branch fires exactly when the normalized text equals "hi", "hello" or "hey"
or contains "hello" or "hi " as a substring; and "trouble sleeping lately"
gets the sleep-tips response. -/
theorem C4_category_order (text : Str) :
    _triage text = triageTable text ∧
    _triage (S "trouble sleeping lately") = SLEEP_RESP :=
  ⟨triage_eq_table text, by decide⟩

/-- Claim C10: the classifier returns the emergency response only when the
lowercased input contains one of the emergency phrases; for every input
containing none of them the result is a topic-category, greeting or default
response, never the emergency template. -/
theorem C10_no_false_emergencies (text : Str)
    (h : ∀ k ∈ EMERGENCY_SIGNS, ¬ substr k (lowerS text)) :
    _triage text ∈ NONEMERG_RESPONSES ∧ _triage text ≠ EMERG_RESP := by
  have hm := triage_no_emergency text h
  refine ⟨hm, fun heq => ?_⟩
  rw [heq] at hm
  exact emerg_resp_notin hm

theorem C10_no_false_emergencies_witness :
    (∀ k ∈ EMERGENCY_SIGNS, ¬ substr k (lowerS (S "I have a headache today"))) ∧
    _triage (S "I have a headache today") ≠ EMERG_RESP :=
  ⟨by decide, (C10_no_false_emergencies (S "I have a headache today") (by decide)).2⟩

/-! ## The tokenizer of the lexical scorer (`_tok` in `search.py`)

`_tok` is `re.findall` of the pattern `[a-zA-Z]+(?:'[a-z]+)?` with each match
lowercased. `scan1` runs the corresponding left-to-right scan one character
at a time: in a letter run it is in state `word`, after the run's apostrophe
in state `sawApos`, in the lowercase continuation in state `cont`; a match
ends where the pattern can no longer extend, and scanning resumes at the
character that ended it. -/

/-- The character class `[a-zA-Z]` of the tokenizer's pattern. -/
def isAlphaC (c : Char) : Bool :=
  (65 ≤ c.toNat && c.toNat ≤ 90) || (97 ≤ c.toNat && c.toNat ≤ 122)

/-- The character class `[a-z]` of the pattern's apostrophe continuation. -/
def isLowC (c : Char) : Bool := 97 ≤ c.toNat && c.toNat ≤ 122

/-- The apostrophe character. -/
def apos : Char := Char.ofNat 39

theorem dropWhile_length_le (p : Char → Bool) (l : List Char) :
    (l.dropWhile p).length ≤ l.length :=
  (List.dropWhile_sublist p).length_le

/-- The scanner's state: outside a match, inside the letter run (with the run
so far reversed), right after the run's apostrophe, or inside the lowercase
continuation. -/
inductive ScanSt
  | top : ScanSt
  | word : List Char → ScanSt
  | sawApos : List Char → ScanSt
  | cont : List Char → ScanSt

/-- One-character-at-a-time scan for all matches of `[a-zA-Z]+(?:'[a-z]+)?`. -/
def scan1 : ScanSt → List Char → List (List Char)
  | .top, [] => []
  | .word acc, [] => [acc.reverse]
  | .sawApos acc, [] => [acc.reverse]
  | .cont acc, [] => [acc.reverse]
  | .top, c :: cs => if isAlphaC c then scan1 (.word [c]) cs else scan1 .top cs
  | .word acc, c :: cs =>
      if isAlphaC c then scan1 (.word (c :: acc)) cs
      else if c == apos then scan1 (.sawApos acc) cs
      else acc.reverse :: scan1 .top cs
  | .sawApos acc, c :: cs =>
      if isLowC c then scan1 (.cont (c :: apos :: acc)) cs
      else if isAlphaC c then acc.reverse :: scan1 (.word [c]) cs
      else acc.reverse :: scan1 .top cs
  | .cont acc, c :: cs =>
      if isLowC c then scan1 (.cont (c :: acc)) cs
      else if isAlphaC c then acc.reverse :: scan1 (.word [c]) cs
      else acc.reverse :: scan1 .top cs

/-- `_tok(s)`: all matches of the pattern over `s`, each lowercased. -/
def _tok (s : Str) : List Str := (scan1 .top s).map lowerS

/-- Modelled from the spec (amended): extract the maximal runs matching
"letters, optionally followed by an apostrophe and more lowercase letters":
at a letter, the maximal letter run, extended by the apostrophe and the
maximal lowercase run when an apostrophe followed by a lowercase letter comes
next; scanning resumes right after each extracted run. -/
def tokRuns : List Char → List (List Char)
  | [] => []
  | c :: cs =>
    if hal : isAlphaC c then
      let r1 := List.takeWhile isAlphaC (c :: cs)
      match hdr : List.dropWhile isAlphaC (c :: cs) with
      | q :: d :: rest2 =>
        if q == apos && isLowC d then
          (r1 ++ q :: List.takeWhile isLowC (d :: rest2))
            :: tokRuns (List.dropWhile isLowC (d :: rest2))
        else r1 :: tokRuns (q :: d :: rest2)
      | rest1 => r1 :: tokRuns rest1
    else tokRuns cs
termination_by l => l.length
decreasing_by
  · rename_i cs hcond
    have h1 : (List.dropWhile isLowC (d :: rest2)).length ≤ rest2.length + 1 :=
      dropWhile_length_le _ _
    have h2 : (q :: d :: rest2).length ≤ cs.length := by
      rw [← hdr, List.dropWhile_cons_of_pos hal]
      exact dropWhile_length_le _ _
    simp only [List.length_cons] at h1 h2 ⊢
    omega
  · rename_i cs hcond
    have h2 : (q :: d :: rest2).length ≤ cs.length := by
      rw [← hdr, List.dropWhile_cons_of_pos hal]
      exact dropWhile_length_le _ _
    simp only [List.length_cons] at h2 ⊢
    omega
  · rename_i cs
    have h2 : rest1.length ≤ cs.length := by
      rw [← hdr, List.dropWhile_cons_of_pos hal]
      exact dropWhile_length_le _ _
    simp only [List.length_cons]
    omega
  · rename_i cs
    simp only [List.length_cons]
    omega

/-- What the scan produces after a letter run `t`: depending on whether the
rest starts with an apostrophe and a lowercase letter, the run is extended or
emitted as is. -/
def afterW (t : List Char) (rest : List Char) : List (List Char) :=
  match rest with
  | q :: d :: rest2 =>
    if q == apos && isLowC d then
      (t ++ q :: List.takeWhile isLowC (d :: rest2))
        :: scan1 .top (List.dropWhile isLowC (d :: rest2))
    else t :: scan1 .top rest
  | _ => t :: scan1 .top rest

theorem cont_eq (l : List Char) : ∀ acc, scan1 (.cont acc) l =
    (acc.reverse ++ l.takeWhile isLowC) :: scan1 .top (l.dropWhile isLowC) := by
  induction l with
  | nil => intro acc; simp [scan1]
  | cons c cs ih =>
    intro acc
    by_cases hc : isLowC c
    · rw [List.takeWhile_cons_of_pos hc, List.dropWhile_cons_of_pos hc]
      simp only [scan1]
      rw [if_pos hc, ih (c :: acc)]
      simp
    · rw [List.takeWhile_cons_of_neg hc, List.dropWhile_cons_of_neg hc]
      simp only [scan1]
      rw [if_neg hc]
      by_cases ha : isAlphaC c
      · rw [if_pos ha, if_pos ha]
        simp
      · rw [if_neg ha, if_neg ha]
        simp

theorem word_eq (l : List Char) : ∀ acc, scan1 (.word acc) l =
    afterW (acc.reverse ++ l.takeWhile isAlphaC) (l.dropWhile isAlphaC) := by
  induction l with
  | nil => intro acc; simp [scan1, afterW]
  | cons c cs ih =>
    intro acc
    by_cases ha : isAlphaC c
    · rw [List.takeWhile_cons_of_pos ha, List.dropWhile_cons_of_pos ha]
      simp only [scan1, ha, if_true, ih (c :: acc)]
      simp
    · by_cases hq : c = apos
      · subst hq
        cases cs with
        | nil => simp [scan1, afterW, ha]
        | cons d rest2 =>
          by_cases hd : isLowC d
          · simp [scan1, afterW, ha, hd, cont_eq, List.takeWhile_cons_of_pos hd,
              List.dropWhile_cons_of_pos hd]
          · have hA : ¬ isAlphaC apos = true := by decide
            have hbq : (apos == apos) = true := by decide
            rw [List.takeWhile_cons_of_neg hA, List.dropWhile_cons_of_neg hA]
            simp only [afterW, List.append_nil]
            rw [if_neg (show ¬ ((apos == apos && isLowC d) = true) by simp [hd])]
            simp only [scan1]
            rw [if_neg hA, if_pos hbq, if_neg hd, if_neg hA]
            split <;> rfl
      · have hq2 : (c == apos) = false := by simpa using hq
        cases cs with
        | nil => simp [scan1, afterW, ha, hq2]
        | cons d rest2 => simp [scan1, afterW, ha, hq2]

/-- The one-character-at-a-time scan extracts exactly the maximal runs. -/
theorem tokRuns_eq (l : List Char) : tokRuns l = scan1 .top l := by
  induction l using tokRuns.induct with
  | case1 => rw [tokRuns.eq_1]; rfl
  | case2 c cs hal q d rest2 hdr hcond ih =>
    have hlhs : tokRuns (c :: cs) =
        (List.takeWhile isAlphaC (c :: cs) ++ q :: List.takeWhile isLowC (d :: rest2))
          :: tokRuns (List.dropWhile isLowC (d :: rest2)) := by
      rw [tokRuns.eq_2, dif_pos hal]
      split
      case h_1 =>
        rename_i q2 d2 rest22 heq
        rw [hdr] at heq
        injection heq with e1 e2
        injection e2 with e2 e3
        subst e1; subst e2; subst e3
        simp only [hcond, if_true]
      case h_2 =>
        rename_i hno
        exact (hno q d rest2 hdr).elim
    have hrhs : scan1 .top (c :: cs) =
        afterW (List.takeWhile isAlphaC (c :: cs)) (List.dropWhile isAlphaC (c :: cs)) := by
      show (if isAlphaC c = true then scan1 (.word [c]) cs else scan1 .top cs) = _
      rw [if_pos hal, word_eq cs, List.takeWhile_cons_of_pos hal,
        List.dropWhile_cons_of_pos hal]
      rfl
    rw [hlhs, hrhs, hdr]
    simp only [afterW, hcond, if_true]
    rw [ih]
  | case3 c cs hal q d rest2 hdr hcond ih =>
    have hlhs : tokRuns (c :: cs) =
        List.takeWhile isAlphaC (c :: cs) :: tokRuns (q :: d :: rest2) := by
      rw [tokRuns.eq_2, dif_pos hal]
      split
      case h_1 =>
        rename_i q2 d2 rest22 heq
        rw [hdr] at heq
        injection heq with e1 e2
        injection e2 with e2 e3
        subst e1; subst e2; subst e3
        rw [if_neg hcond]
      case h_2 =>
        rename_i hno
        exact (hno q d rest2 hdr).elim
    have hrhs : scan1 .top (c :: cs) =
        afterW (List.takeWhile isAlphaC (c :: cs)) (List.dropWhile isAlphaC (c :: cs)) := by
      show (if isAlphaC c = true then scan1 (.word [c]) cs else scan1 .top cs) = _
      rw [if_pos hal, word_eq cs, List.takeWhile_cons_of_pos hal,
        List.dropWhile_cons_of_pos hal]
      rfl
    rw [hlhs, hrhs, hdr]
    simp only [afterW]
    rw [if_neg hcond, ih]
  | case4 c cs hal hno ih =>
    have hlhs : tokRuns (c :: cs) =
        List.takeWhile isAlphaC (c :: cs) :: tokRuns (List.dropWhile isAlphaC (c :: cs)) := by
      rw [tokRuns.eq_2, dif_pos hal]
      split
      case h_1 =>
        rename_i q2 d2 rest22 heq
        exact (hno q2 d2 rest22 heq).elim
      case h_2 => rfl
    have hrhs : scan1 .top (c :: cs) =
        afterW (List.takeWhile isAlphaC (c :: cs)) (List.dropWhile isAlphaC (c :: cs)) := by
      show (if isAlphaC c = true then scan1 (.word [c]) cs else scan1 .top cs) = _
      rw [if_pos hal, word_eq cs, List.takeWhile_cons_of_pos hal,
        List.dropWhile_cons_of_pos hal]
      rfl
    rw [hlhs, hrhs]
    cases hd2 : List.dropWhile isAlphaC (c :: cs) with
    | nil =>
      rw [hd2] at ih
      simp only [afterW]
      rw [ih]
    | cons x xs =>
      cases xs with
      | nil =>
        rw [hd2] at ih
        simp only [afterW]
        rw [ih]
      | cons y ys => exact (hno x y ys hd2).elim
  | case5 c cs hal ih =>
    rw [tokRuns.eq_2, dif_neg hal, ih]
    rw [show scan1 .top (c :: cs) =
      if isAlphaC c = true then scan1 (.word [c]) cs else scan1 .top cs from rfl]
    rw [if_neg hal]

/-- Modelled from the spec (amended): the spec's description of the
tokenizer — "extract maximal runs matching the pattern, case-fold to
lowercase" — with the amended pattern whose apostrophe continuation takes
lowercase letters only. -/
def tokSpec (s : Str) : List Str := (tokRuns s).map lowerS

/-- Claim C7 fails on the code: the uppercase contraction "DON'T" tokenizes
to the two tokens "don", "t", not to the single token "don't", because the
pattern's apostrophe continuation accepts lowercase letters only. -/
theorem C7_uppercase_contraction_counterexample :
    _tok (S "DON'T") = [S "don", S "t"] ∧ [S "don", S "t"] ≠ [S "don't"] := by decide

/-- Claim C7 (amended): the tokenizer extracts exactly the maximal runs of
"letters, optionally followed by an apostrophe and more lowercase letters",
case-folding each extracted run to lowercase. -/
theorem C7_tokenizer_runs (s : Str) : _tok s = tokSpec s := by
  unfold _tok tokSpec
  rw [tokRuns_eq]

/-! ## The lexical scorer (`backend/app/services/search.py`) -/

/-- A knowledge-base document: title, summary and tags (`data.json` entry). -/
structure Doc where
  title : Str
  summary : Str
  tags : List Str
deriving DecidableEq

/-- The document text scored against the query:
`" ".join([title, summary, " ".join(tags)])`. -/
def docText (d : Doc) : Str :=
  List.intercalate (S " ") [d.title, d.summary, List.intercalate (S " ") d.tags]

/-- `score(query, doc)`: tag hits weighted 3.0 plus token overlap weighted
1.2 and damped by the length penalty `1/sqrt(|document tokens| + 1)`. -/
noncomputable def score (query : Str) (d : Doc) : ℝ :=
  let q := lowerS query
  let q_tokens := (_tok query).toFinset
  let text := docText d
  let d_tokens := (_tok text).toFinset
  let tag_hits := List.countP (fun t => substrB t q) d.tags
  let overlap := (q_tokens ∩ d_tokens).card
  let len_penalty := 1.0 / Real.sqrt (d_tokens.card + 1)
  tag_hits * 3.0 + overlap * 1.2 * len_penalty

/-- Python list slicing `l[:k]` for an arbitrary integer `k`: a negative `k`
counts from the end. -/
def pyslice (k : ℤ) (l : List α) : List α :=
  l.take (if k < 0 then ((l.length : ℤ) + k).toNat else k.toNat)

/-- Stable insertion for the descending-by-score sort: the new element goes
in front of the first element whose score is not larger. -/
noncomputable def insertD (a : Doc × ℝ) : List (Doc × ℝ) → List (Doc × ℝ)
  | [] => [a]
  | b :: l => if b.2 ≤ a.2 then a :: b :: l else b :: insertD a l

/-- The stable descending sort by score: Python's stable
`scored.sort(key=lambda x: x[1], reverse=True)`. -/
noncomputable def sortD : List (Doc × ℝ) → List (Doc × ℝ)
  | [] => []
  | a :: l => insertD a (sortD l)

/-- `top_k(query, k)`: score every document, sort descending by score
(stably), take the slice `[:k]`, and keep only scores above 0.1. -/
noncomputable def top_k (KB : List Doc) (query : Str) (k : ℤ) : List (Doc × ℝ) :=
  let scored := KB.map (fun d => (d, score query d))
  let sorted := sortD scored
  (pyslice k sorted).filter (fun x => decide ((0.1 : ℝ) < x.2))

/-- Non-increasing scores: the order the sort establishes. -/
def descp (x y : Doc × ℝ) : Prop := y.2 ≤ x.2

/-- `p` is an initial segment of `l`. -/
def prefOf (p l : List α) : Prop := ∃ t, p ++ t = l

/-- Pointwise truth over a list. -/
def allP (p : α → Prop) : List α → Prop
  | [] => True
  | a :: l => p a ∧ allP p l

/-- The scored pairs holding a given score value, in order. -/
noncomputable def keyFilter (v : ℝ) (l : List (Doc × ℝ)) : List (Doc × ℝ) :=
  l.filter (fun x => decide (x.2 = v))

theorem keyFilter_nil (v : ℝ) : keyFilter v [] = [] := rfl

theorem keyFilter_cons (v : ℝ) (x : Doc × ℝ) (l : List (Doc × ℝ)) :
    keyFilter v (x :: l) = if x.2 = v then x :: keyFilter v l else keyFilter v l := by
  simp only [keyFilter, List.filter_cons]
  by_cases h : x.2 = v <;> simp [h]

theorem length_insertD (a : Doc × ℝ) (l : List (Doc × ℝ)) :
    (insertD a l).length = l.length + 1 := by
  induction l with
  | nil => simp [insertD]
  | cons b l ih =>
    simp only [insertD]
    split <;> simp [ih]

theorem mem_insertD (x a : Doc × ℝ) (l : List (Doc × ℝ)) :
    x ∈ insertD a l ↔ x = a ∨ x ∈ l := by
  induction l with
  | nil => simp [insertD]
  | cons b l ih =>
    simp only [insertD]
    split
    · simp [List.mem_cons]
    · simp only [List.mem_cons, ih]
      tauto

theorem length_sortD (l : List (Doc × ℝ)) : (sortD l).length = l.length := by
  induction l with
  | nil => rfl
  | cons a l ih => simp [sortD, length_insertD, ih]

theorem mem_sortD (x : Doc × ℝ) (l : List (Doc × ℝ)) : x ∈ sortD l ↔ x ∈ l := by
  induction l with
  | nil => simp [sortD]
  | cons a l ih => simp [sortD, mem_insertD, ih]

theorem pairwise_insertD (a : Doc × ℝ) (l : List (Doc × ℝ))
    (h : List.Pairwise descp l) : List.Pairwise descp (insertD a l) := by
  induction l with
  | nil => simp [insertD, descp]
  | cons b l ih =>
    rcases List.pairwise_cons.mp h with ⟨hb, hl⟩
    simp only [insertD]
    split
    case isTrue hba =>
      refine List.pairwise_cons.mpr ⟨?_, h⟩
      intro x hx
      rcases List.mem_cons.mp hx with rfl | hx
      · exact hba
      · exact le_trans (hb x hx) hba
    case isFalse hba =>
      refine List.pairwise_cons.mpr ⟨?_, ih hl⟩
      intro x hx
      rcases (mem_insertD x a l).mp hx with rfl | hx
      · exact le_of_not_le hba
      · exact hb x hx

theorem pairwise_sortD (l : List (Doc × ℝ)) : List.Pairwise descp (sortD l) := by
  induction l with
  | nil => simp [sortD]
  | cons a l ih =>
    simp only [sortD]
    exact pairwise_insertD a (sortD l) ih

/-- Stable insertion keeps, for every score value, the equal-scored pairs and
their order; the inserted pair goes first among its ties. -/
theorem keyFilter_insertD (v : ℝ) (a : Doc × ℝ) (l : List (Doc × ℝ)) :
    keyFilter v (insertD a l) =
      if a.2 = v then a :: keyFilter v l else keyFilter v l := by
  induction l with
  | nil =>
    simp only [insertD]
    rw [keyFilter_cons, keyFilter_nil]
  | cons b l ih =>
    simp only [insertD]
    split
    case isTrue hba => rw [keyFilter_cons]
    case isFalse hba =>
      rw [keyFilter_cons, ih]
      by_cases hav : a.2 = v
      · have hbv : ¬ b.2 = v := by
          intro hbv
          exact hba (le_of_eq (hbv.trans hav.symm))
        rw [if_neg hbv, if_pos hav, if_pos hav, keyFilter_cons, if_neg hbv]
      · rw [if_neg hav, if_neg hav, keyFilter_cons]

/-- The stable sort keeps, for every score value, exactly the equal-scored
pairs of the input in their original order. -/
theorem keyFilter_sortD (v : ℝ) (l : List (Doc × ℝ)) :
    keyFilter v (sortD l) = keyFilter v l := by
  induction l with
  | nil => rfl
  | cons a l ih =>
    simp only [sortD]
    rw [keyFilter_insertD, keyFilter_cons, ih]

theorem keyFilter_take_pref (v : ℝ) (n : ℕ) (l : List (Doc × ℝ)) :
    prefOf (keyFilter v (l.take n)) (keyFilter v l) :=
  ⟨keyFilter v (l.drop n), by
    unfold keyFilter
    rw [← List.filter_append, List.take_append_drop]⟩

theorem keyFilter_filterP_of_gt {v : ℝ} (hv : (0.1 : ℝ) < v) (m : List (Doc × ℝ)) :
    keyFilter v (m.filter (fun x => decide ((0.1 : ℝ) < x.2))) = keyFilter v m := by
  induction m with
  | nil => rfl
  | cons a m ih =>
    rw [List.filter_cons]
    by_cases hav : a.2 = v
    · have hpa : decide ((0.1 : ℝ) < a.2) = true := by
        rw [hav]; exact decide_eq_true hv
      rw [if_pos hpa, keyFilter_cons, keyFilter_cons, if_pos hav, if_pos hav, ih]
    · by_cases hpa : decide ((0.1 : ℝ) < a.2) = true
      · rw [if_pos hpa, keyFilter_cons, keyFilter_cons, if_neg hav, if_neg hav, ih]
      · rw [if_neg hpa, keyFilter_cons, if_neg hav, ih]

theorem keyFilter_filterP_of_le {v : ℝ} (hv : ¬ (0.1 : ℝ) < v) (m : List (Doc × ℝ)) :
    keyFilter v (m.filter (fun x => decide ((0.1 : ℝ) < x.2))) = [] := by
  induction m with
  | nil => rfl
  | cons a m ih =>
    rw [List.filter_cons]
    by_cases hpa : decide ((0.1 : ℝ) < a.2) = true
    · have hav : ¬ a.2 = v := fun hav => hv (hav ▸ of_decide_eq_true hpa)
      rw [if_pos hpa, keyFilter_cons, if_neg hav]
      exact ih
    · rw [if_neg hpa]
      exact ih

theorem allP_iff (p : α → Prop) (l : List α) : allP p l ↔ ∀ x ∈ l, p x := by
  induction l with
  | nil => simp [allP]
  | cons a l ih => simp [allP, ih, List.forall_mem_cons]

theorem allP_filterP (m : List (Doc × ℝ)) :
    allP (fun x => (0.1 : ℝ) < x.2) (m.filter (fun x => decide ((0.1 : ℝ) < x.2))) := by
  rw [allP_iff]
  intro x hx
  exact of_decide_eq_true ((List.mem_filter.mp hx).2)

theorem keyFilter_pyslice_pref (v : ℝ) (k : ℤ) (l : List (Doc × ℝ)) :
    prefOf (keyFilter v (pyslice k l)) (keyFilter v l) := by
  unfold pyslice
  exact keyFilter_take_pref v _ l

/-- A concrete document, the spec's running example: title "Managing
Anxiety", tags "anxiety" and "stress". -/
def anxietyDoc : Doc :=
  ⟨S "Managing Anxiety", S "Slow breathing and grounding can ease acute anxiety.",
   [S "anxiety", S "stress"]⟩

/-- Claim C5 (amended): for every corpus, query and integer `k`, the top-k
result is sorted by non-increasing score, every returned pair has score above
0.1, within each score value the returned pairs are an initial segment of the
corpus-ordered scored pairs (stable ties), and for `k ≥ 0` at most `k` pairs
are returned. -/
theorem C5_topk_contract (KB : List Doc) (q : Str) (k : ℤ) :
    (0 ≤ k → ((top_k KB q k).length : ℤ) ≤ k) ∧
    List.Pairwise descp (top_k KB q k) ∧
    allP (fun x => (0.1 : ℝ) < x.2) (top_k KB q k) ∧
    ∀ v : ℝ, prefOf (keyFilter v (top_k KB q k))
      (keyFilter v (KB.map (fun d => (d, score q d)))) := by
  have htop : top_k KB q k =
      (pyslice k (sortD (KB.map (fun d => (d, score q d))))).filter
        (fun x => decide ((0.1 : ℝ) < x.2)) := rfl
  refine ⟨?_, ?_, ?_, ?_⟩
  · intro hk
    rw [htop]
    have h1 := List.length_filter_le (fun x => decide ((0.1 : ℝ) < x.2))
      (pyslice k (sortD (KB.map (fun d => (d, score q d)))))
    have h2 : (pyslice k (sortD (KB.map (fun d => (d, score q d))))).length ≤ k.toNat := by
      unfold pyslice
      rw [if_neg (by omega : ¬ k < 0), List.length_take]
      exact min_le_left _ _
    have h3 := le_trans h1 h2
    omega
  · rw [htop]
    have hsub : List.Sublist
        ((pyslice k (sortD (KB.map (fun d => (d, score q d))))).filter
          (fun x => decide ((0.1 : ℝ) < x.2)))
        (sortD (KB.map (fun d => (d, score q d)))) :=
      (List.filter_sublist _).trans (List.take_sublist _ _)
    exact List.Pairwise.sublist hsub (pairwise_sortD _)
  · rw [htop]
    exact allP_filterP _
  · intro v
    rw [htop]
    by_cases hv : (0.1 : ℝ) < v
    · rw [keyFilter_filterP_of_gt hv]
      have hp := keyFilter_pyslice_pref v k (sortD (KB.map (fun d => (d, score q d))))
      rw [keyFilter_sortD] at hp
      exact hp
    · rw [keyFilter_filterP_of_le hv]
      exact ⟨_, rfl⟩

theorem C5_topk_contract_witness :
    ((0 : ℤ) ≤ 3) ∧ ((top_k [anxietyDoc] (S "anxiety breathing") 3).length : ℤ) ≤ 3 :=
  ⟨by decide, (C5_topk_contract [anxietyDoc] (S "anxiety breathing") 3).1 (by decide)⟩

/-- Claim C5 fails on the code for negative `k`: Python's slice `scored[:k]`
counts a negative `k` from the end, so `top_k(q, -1)` over a one-document
corpus returns the empty list, whose length 0 is not at most `k = -1`. -/
theorem C5_negative_k_counterexample :
    ¬ (((top_k [anxietyDoc] [] (-1)).length : ℤ) ≤ (-1 : ℤ)) := by
  have h : top_k [anxietyDoc] [] (-1) = [] := by
    show (pyslice (-1) (sortD ([anxietyDoc].map (fun d => (d, score [] d))))).filter
      (fun x => decide ((0.1 : ℝ) < x.2)) = []
    rw [show [anxietyDoc].map (fun d => (d, score [] d)) =
        [(anxietyDoc, score [] anxietyDoc)] from rfl]
    rw [show sortD [(anxietyDoc, score [] anxietyDoc)] =
        [(anxietyDoc, score [] anxietyDoc)] from by simp [sortD, insertD]]
    unfold pyslice
    norm_num
  rw [h]
  norm_num

/-- The claim's tagHits: the count of the document's tags occurring as
substrings of the lowercased raw query. -/
def tagHitsSpec (query : Str) (d : Doc) : ℕ :=
  (d.tags.filter (fun t => substrB t (lowerS query))).length

/-- The claim's tokenOverlap: the number of distinct tokens shared between
the query's tokens and the tokens of the document's title, summary and tags. -/
def overlapSpec (query : Str) (d : Doc) : ℕ :=
  ((_tok query).dedup.filter (fun w => decide (w ∈ _tok (docText d)))).length

/-- The claim's documentTokenCount: the number of distinct tokens of the
document's title, summary and tags. -/
def dcountSpec (d : Doc) : ℕ := (_tok (docText d)).dedup.length

theorem inter_card (l m : List Str) :
    (l.toFinset ∩ m.toFinset).card =
      (l.dedup.filter (fun w => decide (w ∈ m))).length := by
  have h1 : l.toFinset ∩ m.toFinset =
      (l.dedup.filter (fun w => decide (w ∈ m))).toFinset := by
    ext x
    simp [List.mem_toFinset, List.mem_filter, List.mem_dedup]
  rw [h1, List.toFinset_card_of_nodup ((l.nodup_dedup).filter _)]

/-- Claim C6: the score equals
`tagHits * 3.0 + tokenOverlap * 1.2 * (1 / sqrt(documentTokenCount + 1))`,
with tagHits counting tags that are substrings of the lowercased raw query,
tokenOverlap the number of distinct shared tokens, and documentTokenCount
the size of the document's token set. -/
theorem C6_score_formula (query : Str) (d : Doc) :
    score query d = tagHitsSpec query d * 3.0 +
      overlapSpec query d * 1.2 * (1 / Real.sqrt (dcountSpec d + 1)) := by
  simp only [score, tagHitsSpec, overlapSpec, dcountSpec]
  rw [List.countP_eq_length_filter, inter_card, List.card_toFinset]
  norm_num

/-- Claim C8: on the empty query every document of a corpus whose tags are
nonempty strings has zero tag hits, zero token overlap, and score 0, and the
top-k result is the empty list for every `k` — a normal outcome, not an
error. -/
theorem C8_empty_query (KB : List Doc) (k : ℤ)
    (h : KB.all (fun d => d.tags.all (fun t => !t.isEmpty)) = true) :
    allP (fun d => tagHitsSpec [] d = 0 ∧ overlapSpec [] d = 0 ∧ score [] d = 0) KB ∧
    top_k KB [] k = [] := by
  have hdoc : ∀ d ∈ KB, tagHitsSpec [] d = 0 ∧ overlapSpec [] d = 0 ∧ score [] d = 0 := by
    intro d hd
    have htags : ∀ t ∈ d.tags, ¬ t.isEmpty = true := by
      have hall := List.all_eq_true.mp (List.all_eq_true.mp h d hd)
      intro t ht
      have := hall t ht
      simp at this
      simp [List.isEmpty_iff, this]
    have h1 : tagHitsSpec [] d = 0 := by
      unfold tagHitsSpec
      rw [List.length_eq_zero, List.filter_eq_nil_iff]
      intro t ht
      show ¬ substrB t (lowerS []) = true
      rw [show substrB t (lowerS []) = t.isEmpty from rfl]
      exact htags t ht
    have h2 : overlapSpec [] d = 0 := rfl
    have h3 : score [] d = 0 := by
      simp only [score]
      rw [show List.countP (fun t => substrB t (lowerS [])) d.tags =
          tagHitsSpec [] d from
            List.countP_eq_length_filter (fun t => substrB t (lowerS [])) d.tags, h1]
      rw [show ((_tok ([] : Str)).toFinset ∩ (_tok (docText d)).toFinset) =
          (∅ : Finset Str) from by rw [show (_tok ([] : Str)).toFinset = ∅ from rfl,
            Finset.empty_inter]]
      rw [Finset.card_empty]
      push_cast
      ring
    exact ⟨h1, h2, h3⟩
  constructor
  · rw [allP_iff]
    exact hdoc
  · show (pyslice k (sortD (KB.map (fun d => (d, score [] d))))).filter
      (fun x => decide ((0.1 : ℝ) < x.2)) = []
    rw [List.filter_eq_nil_iff]
    intro x hx
    have hx2 : x ∈ sortD (KB.map (fun d => (d, score [] d))) :=
      (List.take_sublist _ _).subset hx
    rw [mem_sortD] at hx2
    rcases List.mem_map.mp hx2 with ⟨d, hd, rfl⟩
    have h3 := (hdoc d hd).2.2
    simp only [h3, decide_eq_true_eq]
    norm_num

theorem C8_empty_query_witness :
    ([anxietyDoc].all (fun d => d.tags.all (fun t => !t.isEmpty)) = true) ∧
    top_k [anxietyDoc] [] 3 = [] :=
  ⟨by decide, (C8_empty_query [anxietyDoc] 3 (by decide)).2⟩

/-- Claim C9: both core functions are total — the classifier always returns
one of the defined response strings, and the scorer always returns a defined
list of at most corpus-many pairs whose documents come from the corpus. -/
theorem C9_totality (text : Str) (KB : List Doc) (q : Str) (k : ℤ) :
    _triage text ∈ RESPONSES ∧ (top_k KB q k).length ≤ KB.length ∧
    allP (fun x => x.1 ∈ KB) (top_k KB q k) := by
  refine ⟨triage_mem text, ?_, ?_⟩
  · have h1 := List.length_filter_le (fun x => decide ((0.1 : ℝ) < x.2))
      (pyslice k (sortD (KB.map (fun d => (d, score q d)))))
    have h2 : (pyslice k (sortD (KB.map (fun d => (d, score q d))))).length ≤
        (sortD (KB.map (fun d => (d, score q d)))).length :=
      (List.take_sublist _ _).length_le
    rw [length_sortD, List.length_map] at h2
    exact le_trans h1 h2
  · rw [allP_iff]
    intro x hx
    have hx2 : x ∈ sortD (KB.map (fun d => (d, score q d))) :=
      (List.take_sublist _ _).subset ((List.filter_sublist _).subset hx)
    rw [mem_sortD] at hx2
    rcases List.mem_map.mp hx2 with ⟨d, hd, rfl⟩
    exact hd
